import Mathlib

/-!
Verification development for the vectorx circuit layer.

The Rust sources embedded here are:
- src/circuits/src/utils.rs      (int_div, FloorDivGenerator, random_access_vec)
- src/circuits/src/encoding.rs   (decode_compact_int, decode_header)
- src/circuits/src/consensus.rs  (build_grandpa_justification_verifier)

Circuit wires carry elements of the Goldilocks field; every wire value is
represented by its canonical natural number (< GOLDILOCKS_P).  Constraints
`connect`, `range_check`, `split_le`, `le_sum`, `reduce`, `random_access`
are embedded as operations / propositions on those canonical naturals;
whenever both sides of an emitted field equation are below the field
modulus (which the range checks guarantee at every use site embedded
below), field equality coincides with equality of the canonical naturals.
-/

/-- Order of the Goldilocks field used by the plonky2 backend. -/
def GOLDILOCKS_P : ℕ := 2 ^ 64 - 2 ^ 32 + 1

/-- Embedding of FloorDivGenerator::run_once (src/circuits/src/utils.rs lines
110-119).  The generator reads the canonical u64 of each witness value and
casts it to u32 (truncation mod 2^32) before dividing; it writes the
quotient and remainder targets. -/
def floorDivGen (dividend divisor : ℕ) : ℕ × ℕ :=
  ((dividend % 2 ^ 32) / (divisor % 2 ^ 32), (dividend % 2 ^ 32) % (divisor % 2 ^ 32))

/-- Embedding of the constraint emitted by int_div (src/circuits/src/utils.rs
lines 41-61): q * divisor + r = dividend, checked over the Goldilocks field
(mul, add, is_equal, assert_one). -/
def int_div_constraint (dividend divisor q r : ℕ) : Prop :=
  (q * divisor + r) % GOLDILOCKS_P = dividend % GOLDILOCKS_P

instance int_div_constraint_decidable (dividend divisor q r : ℕ) :
    Decidable (int_div_constraint dividend divisor q r) := by
  unfold int_div_constraint
  infer_instance

/-- Embedding of plonky2's le_sum: the little-endian weighted sum of a list
of bit wires, bits[0] + 2 * bits[1] + 4 * bits[2] + ... -/
def le_sum (bits : List ℕ) : ℕ :=
  match bits with
  | [] => 0
  | b :: rest => b + 2 * le_sum rest

/-- Embedding of the builder's reduce (little-endian byte reduction used by
decode_compact_int) and of reduce_with_powers_circuit:
terms[0] + alpha * terms[1] + alpha^2 * terms[2] + ... -/
def reduce (alpha : ℕ) (terms : List ℕ) : ℕ :=
  match terms with
  | [] => 0
  | t :: rest => t + alpha * reduce alpha rest

/-- Embedding of the backend's random_access gate: select element `index`
of the list of wires. -/
def random_access (index : ℕ) (v : List ℕ) : ℕ :=
  v.getD index 0

/-- The `len` wire values starting at position `start` of a buffer of wires
(Rust slice bytes[start..start+len]; positions past the end read as zero). -/
def sliceD (l : List ℕ) (start len : ℕ) : List ℕ :=
  match len with
  | 0 => []
  | n + 1 => l.getD start 0 :: sliceD l (start + 1) n

/-- Embedding of random_access_vec (src/circuits/src/utils.rs lines 63-84):
column-wise scalar random access over equal-length rows. -/
def random_access_vec (index : ℕ) (targets : List (List ℕ)) : List ℕ :=
  (List.range (targets.headD []).length).map
    (fun i => random_access index (targets.map (fun t => t.getD i 0)))

lemma sliceD_cons_succ (x : ℕ) (xs : List ℕ) (s n : ℕ) :
    sliceD (x :: xs) (s + 1) n = sliceD xs s n := by
  induction n generalizing s with
  | zero => rfl
  | succ m ih =>
      simp only [sliceD, List.getD_cons_succ]
      rw [ih (s + 1)]

lemma sliceD_self (l : List ℕ) : sliceD l 0 l.length = l := by
  induction l with
  | nil => rfl
  | cons x xs ih =>
      simp only [List.length_cons, sliceD, List.getD_cons_zero]
      rw [show (0 : ℕ) + 1 = 0 + 1 from rfl, sliceD_cons_succ]
      exact congrArg (x :: ·) ih

lemma sliceD_append_left (a b : List ℕ) (s n : ℕ) (h : s + n ≤ a.length) :
    sliceD (a ++ b) s n = sliceD a s n := by
  induction n generalizing s with
  | zero => rfl
  | succ m ih =>
      simp only [sliceD]
      rw [List.getD_append a b 0 s (by omega), ih (s + 1) (by omega)]

lemma sliceD_append_right (a b : List ℕ) (s n : ℕ) (h : a.length ≤ s) :
    sliceD (a ++ b) s n = sliceD b (s - a.length) n := by
  induction n generalizing s with
  | zero => rfl
  | succ m ih =>
      simp only [sliceD]
      rw [List.getD_append_right a b 0 s h, ih (s + 1) (by omega), Nat.sub_add_comm h]

lemma getD_sliceD (l : List ℕ) (s n i : ℕ) (h : i < n) :
    (sliceD l s n).getD i 0 = l.getD (s + i) 0 := by
  induction n generalizing s i with
  | zero => omega
  | succ m ih =>
      cases i with
      | zero => simp [sliceD]
      | succ j =>
          simp only [sliceD, List.getD_cons_succ]
          rw [ih (s + 1) j (by omega)]
          congr 1
          omega

lemma sliceD_length (l : List ℕ) (s n : ℕ) : (sliceD l s n).length = n := by
  induction n generalizing s with
  | zero => rfl
  | succ m ih => simp [sliceD, ih]

/-- C7: for 32-bit dividend and nonzero 32-bit divisor, the witness generator
of int_div assigns q = dividend div divisor and r = dividend mod divisor,
this assignment satisfies the emitted constraint q * divisor + r = dividend,
and the returned quotient wire takes the value floor(dividend / divisor). -/
theorem int_div_correct (dividend divisor : ℕ)
    (hdd : dividend < 2 ^ 32) (hdv : divisor < 2 ^ 32) (h0 : divisor ≠ 0) :
    floorDivGen dividend divisor = (dividend / divisor, dividend % divisor) ∧
    int_div_constraint dividend divisor
      (floorDivGen dividend divisor).1 (floorDivGen dividend divisor).2 ∧
    (floorDivGen dividend divisor).1 = dividend / divisor := by
  have hgen : floorDivGen dividend divisor = (dividend / divisor, dividend % divisor) := by
    unfold floorDivGen
    rw [Nat.mod_eq_of_lt hdd, Nat.mod_eq_of_lt hdv]
  refine ⟨hgen, ?_, by rw [hgen]⟩
  rw [hgen]
  unfold int_div_constraint
  have : dividend / divisor * divisor + dividend % divisor = dividend := by
    rw [Nat.mul_comm (dividend / divisor) divisor]
    exact Nat.div_add_mod dividend divisor
  rw [this]

theorem int_div_correct_witness :
    (13 : ℕ) < 2 ^ 32 ∧ (4 : ℕ) < 2 ^ 32 ∧ (4 : ℕ) ≠ 0 ∧
    (floorDivGen 13 4 = (13 / 4, 13 % 4) ∧
     int_div_constraint 13 4 (floorDivGen 13 4).1 (floorDivGen 13 4).2 ∧
     (floorDivGen 13 4).1 = 13 / 4) :=
  ⟨by norm_num, by norm_num, by norm_num,
   int_div_correct 13 4 (by norm_num) (by norm_num) (by norm_num)⟩

/-- C8: the constraint emitted by int_div alone does not force the quotient
wire to equal the floor quotient: there is a satisfying assignment to the
quotient and remainder wires whose quotient differs from
floor(dividend / divisor). -/
theorem int_div_constraint_unsound :
    ∃ dividend divisor q r : ℕ,
      int_div_constraint dividend divisor q r ∧ q ≠ dividend / divisor := by
  refine ⟨4, 4, 0, 4, ?_, by norm_num⟩
  unfold int_div_constraint
  norm_num

/-- C9: FloorDivGenerator truncates the dividend to 32 bits, so for any
canonical witness value of the dividend at least 2^32 (divisor 4) the
generated quotient and remainder satisfy q * 4 + r = dividend mod 2^32, and
the generated witness violates the emitted field constraint
q * 4 + r = dividend. -/
theorem floorDivGen_truncation (dividend : ℕ)
    (h32 : 2 ^ 32 ≤ dividend) (hp : dividend < GOLDILOCKS_P) :
    (floorDivGen dividend 4).1 * 4 + (floorDivGen dividend 4).2 = dividend % 2 ^ 32 ∧
    ¬ int_div_constraint dividend 4 (floorDivGen dividend 4).1 (floorDivGen dividend 4).2 := by
  have h4 : (4 : ℕ) % 2 ^ 32 = 4 := by norm_num
  have hq : (floorDivGen dividend 4).1 = dividend % 2 ^ 32 / 4 := by
    unfold floorDivGen
    rw [h4]
  have hr : (floorDivGen dividend 4).2 = dividend % 2 ^ 32 % 4 := by
    unfold floorDivGen
    rw [h4]
  have hsum : (floorDivGen dividend 4).1 * 4 + (floorDivGen dividend 4).2 = dividend % 2 ^ 32 := by
    rw [hq, hr]
    omega
  refine ⟨hsum, ?_⟩
  unfold int_div_constraint
  rw [hsum]
  have hlt : dividend % 2 ^ 32 < 2 ^ 32 := Nat.mod_lt _ (by norm_num)
  have hPbig : (2 : ℕ) ^ 32 < GOLDILOCKS_P := by
    unfold GOLDILOCKS_P
    norm_num
  rw [Nat.mod_eq_of_lt (by omega), Nat.mod_eq_of_lt hp]
  omega

theorem floorDivGen_truncation_witness :
    2 ^ 32 ≤ 2 ^ 32 ∧ 2 ^ 32 < GOLDILOCKS_P ∧
    ((floorDivGen (2 ^ 32) 4).1 * 4 + (floorDivGen (2 ^ 32) 4).2 = 2 ^ 32 % 2 ^ 32 ∧
     ¬ int_div_constraint (2 ^ 32) 4 (floorDivGen (2 ^ 32) 4).1 (floorDivGen (2 ^ 32) 4).2) :=
  ⟨le_refl _, by unfold GOLDILOCKS_P; norm_num,
   floorDivGen_truncation (2 ^ 32) (le_refl _) (by unfold GOLDILOCKS_P; norm_num)⟩

/-- Embedding of decode_compact_int (src/circuits/src/encoding.rs lines
16-50) on the canonical byte values of a 5-byte window.  split_le of the
(range-checked) first byte followed by le_sum of its two low bits yields
the byte mod 4; reduce is the builder's little-endian byte reduction; the
divide-by-4 wire is produced by int_div, whose witness generator assigns
the truncating quotient floorDivGen. -/
def decode_compact_int (compact_bytes : List ℕ) : ℕ × ℕ × ℕ :=
  let compress_mode := compact_bytes.getD 0 0 % 4
  let zero_mode_value := compact_bytes.getD 0 0
  let one_mode_value := reduce 256 (sliceD compact_bytes 0 2)
  let two_mode_value := reduce 256 (sliceD compact_bytes 0 4)
  let three_mode_value := reduce 256 (sliceD compact_bytes 1 4)
  let value := random_access compress_mode
    [zero_mode_value, one_mode_value, two_mode_value, three_mode_value]
  let value_div_4 := (floorDivGen value 4).1
  let decoded_int := if compress_mode = 3 then value else value_div_4
  let encoded_byte_length := random_access compress_mode [1, 2, 4, 5]
  (decoded_int, compress_mode, encoded_byte_length)

/-- SCALE compact mode of a value, following the four ranges of the spec. -/
def compactMode (v : ℕ) : ℕ :=
  if v < 64 then 0 else if v < 16384 then 1 else if v < 2 ^ 30 then 2 else 3

/-- Wire-consumed byte length of the SCALE compact encoding per mode. -/
def compactByteLength (v : ℕ) : ℕ :=
  if v < 64 then 1 else if v < 16384 then 2 else if v < 2 ^ 30 then 4 else 5

/-- Canonical SCALE compact encoding of v < 2^32 (little-endian payload,
mode in the two low bits of the first byte), without padding. -/
def encodeCompactBytes (v : ℕ) : List ℕ :=
  if v < 64 then [4 * v]
  else if v < 16384 then [(4 * v + 1) % 256, (4 * v + 1) / 256]
  else if v < 2 ^ 30 then
    [(4 * v + 2) % 256, (4 * v + 2) / 256 % 256,
     (4 * v + 2) / 65536 % 256, (4 * v + 2) / 16777216]
  else [3, v % 256, v / 256 % 256, v / 65536 % 256, v / 16777216 % 256]

/-- The canonical compact encoding placed in a zero-padded 5-byte window. -/
def encodeCompact (v : ℕ) : List ℕ :=
  encodeCompactBytes v ++ List.replicate (5 - compactByteLength v) 0

lemma encodeCompactBytes_length (v : ℕ) :
    (encodeCompactBytes v).length = compactByteLength v := by
  unfold encodeCompactBytes compactByteLength
  split
  · simp
  · split
    · simp
    · split <;> simp

/-- Closed form of decode_compact_int in terms of the five window bytes. -/
lemma decode_compact_int_def (w : List ℕ) :
    decode_compact_int w =
      (if w.getD 0 0 % 4 = 3
        then w.getD 1 0 + 256 * (w.getD 2 0 + 256 * (w.getD 3 0 + 256 * w.getD 4 0))
        else (List.getD
               [w.getD 0 0,
                w.getD 0 0 + 256 * w.getD 1 0,
                w.getD 0 0 + 256 * (w.getD 1 0 + 256 * (w.getD 2 0 + 256 * w.getD 3 0)),
                w.getD 1 0 + 256 * (w.getD 2 0 + 256 * (w.getD 3 0 + 256 * w.getD 4 0))]
               (w.getD 0 0 % 4) 0 % 2 ^ 32) / 4,
       w.getD 0 0 % 4,
       List.getD [1, 2, 4, 5] (w.getD 0 0 % 4) 0) := by
  unfold decode_compact_int floorDivGen random_access
  simp only [sliceD]
  have h4 : (4 : ℕ) % 2 ^ 32 = 4 := by norm_num
  rw [h4]
  simp only [reduce, Nat.mul_zero, Nat.add_zero]
  split
  · rename_i h3
    rw [h3]
    norm_num
  · rfl

lemma decode_compact_window (v : ℕ) (hv : v < 2 ^ 32) (w : List ℕ)
    (hw : ∀ i, i < compactByteLength v → w.getD i 0 = (encodeCompactBytes v).getD i 0) :
    decode_compact_int w = (v, compactMode v, compactByteLength v) := by
  rw [decode_compact_int_def]
  by_cases h0 : v < 64
  · have hmode : compactMode v = 0 := by
      unfold compactMode
      rw [if_pos h0]
    have hlen : compactByteLength v = 1 := by
      unfold compactByteLength
      rw [if_pos h0]
    have e0 : w.getD 0 0 = 4 * v := by
      have h := hw 0 (by rw [hlen]; omega)
      rw [h]
      unfold encodeCompactBytes
      rw [if_pos h0]
      simp [List.getD]
    have hm : w.getD 0 0 % 4 = 0 := by
      rw [e0]
      omega
    rw [hm, hmode, hlen, e0]
    norm_num [List.getD]
    omega
  · by_cases h1 : v < 16384
    · have hmode : compactMode v = 1 := by
        unfold compactMode
        rw [if_neg h0, if_pos h1]
      have hlen : compactByteLength v = 2 := by
        unfold compactByteLength
        rw [if_neg h0, if_pos h1]
      have e0 : w.getD 0 0 = (4 * v + 1) % 256 := by
        have h := hw 0 (by rw [hlen]; omega)
        rw [h]
        unfold encodeCompactBytes
        rw [if_neg h0, if_pos h1]
        simp [List.getD]
      have e1 : w.getD 1 0 = (4 * v + 1) / 256 := by
        have h := hw 1 (by rw [hlen]; omega)
        rw [h]
        unfold encodeCompactBytes
        rw [if_neg h0, if_pos h1]
        simp [List.getD]
      have hm : w.getD 0 0 % 4 = 1 := by
        rw [e0]
        omega
      rw [hm, hmode, hlen, e0, e1]
      norm_num [List.getD]
      omega
    · by_cases h2 : v < 2 ^ 30
      · have hmode : compactMode v = 2 := by
          unfold compactMode
          rw [if_neg h0, if_neg h1, if_pos h2]
        have hlen : compactByteLength v = 4 := by
          unfold compactByteLength
          rw [if_neg h0, if_neg h1, if_pos h2]
        have e0 : w.getD 0 0 = (4 * v + 2) % 256 := by
          have h := hw 0 (by rw [hlen]; omega)
          rw [h]
          unfold encodeCompactBytes
          rw [if_neg h0, if_neg h1, if_pos h2]
          simp [List.getD]
        have e1 : w.getD 1 0 = (4 * v + 2) / 256 % 256 := by
          have h := hw 1 (by rw [hlen]; omega)
          rw [h]
          unfold encodeCompactBytes
          rw [if_neg h0, if_neg h1, if_pos h2]
          simp [List.getD]
        have e2 : w.getD 2 0 = (4 * v + 2) / 65536 % 256 := by
          have h := hw 2 (by rw [hlen]; omega)
          rw [h]
          unfold encodeCompactBytes
          rw [if_neg h0, if_neg h1, if_pos h2]
          simp [List.getD]
        have e3 : w.getD 3 0 = (4 * v + 2) / 16777216 := by
          have h := hw 3 (by rw [hlen]; omega)
          rw [h]
          unfold encodeCompactBytes
          rw [if_neg h0, if_neg h1, if_pos h2]
          simp [List.getD]
        have hm : w.getD 0 0 % 4 = 2 := by
          rw [e0]
          omega
        have hv2 : 4 * v + 2 < 2 ^ 32 := by
          have : (2 : ℕ) ^ 30 ≤ 2 ^ 32 := by norm_num
          omega
        rw [hm, hmode, hlen, e0, e1, e2, e3]
        norm_num [List.getD]
        omega
      · have hmode : compactMode v = 3 := by
          unfold compactMode
          rw [if_neg h0, if_neg h1, if_neg h2]
        have hlen : compactByteLength v = 5 := by
          unfold compactByteLength
          rw [if_neg h0, if_neg h1, if_neg h2]
        have e0 : w.getD 0 0 = 3 := by
          have h := hw 0 (by rw [hlen]; omega)
          rw [h]
          unfold encodeCompactBytes
          rw [if_neg h0, if_neg h1, if_neg h2]
          simp [List.getD]
        have e1 : w.getD 1 0 = v % 256 := by
          have h := hw 1 (by rw [hlen]; omega)
          rw [h]
          unfold encodeCompactBytes
          rw [if_neg h0, if_neg h1, if_neg h2]
          simp [List.getD]
        have e2 : w.getD 2 0 = v / 256 % 256 := by
          have h := hw 2 (by rw [hlen]; omega)
          rw [h]
          unfold encodeCompactBytes
          rw [if_neg h0, if_neg h1, if_neg h2]
          simp [List.getD]
        have e3 : w.getD 3 0 = v / 65536 % 256 := by
          have h := hw 3 (by rw [hlen]; omega)
          rw [h]
          unfold encodeCompactBytes
          rw [if_neg h0, if_neg h1, if_neg h2]
          simp [List.getD]
        have e4 : w.getD 4 0 = v / 16777216 % 256 := by
          have h := hw 4 (by rw [hlen]; omega)
          rw [h]
          unfold encodeCompactBytes
          rw [if_neg h0, if_neg h1, if_neg h2]
          simp [List.getD]
        have hm : w.getD 0 0 % 4 = 3 := by
          rw [e0]
        rw [hm, hmode, hlen, e1, e2, e3, e4]
        norm_num [List.getD]
        omega

/-- C1: for every 5-byte window holding the canonical SCALE compact encoding
of a value v in one of the four mode ranges, decode_compact_int returns
(v, mode, byte_length) with mode equal to the two low bits of the first
byte and byte_length equal to 1, 2, 4 or 5 for mode 0, 1, 2, 3. -/
theorem decode_compact_int_canonical (v : ℕ) (hv : v < 2 ^ 32) :
    decode_compact_int (encodeCompact v) = (v, compactMode v, compactByteLength v) ∧
    compactMode v = (encodeCompact v).getD 0 0 % 4 ∧
    compactByteLength v = List.getD [1, 2, 4, 5] (compactMode v) 0 := by
  have hlenpos : 0 < compactByteLength v := by
    unfold compactByteLength
    split
    · omega
    · split
      · omega
      · split <;> omega
  have hb0 : (encodeCompact v).getD 0 0 = (encodeCompactBytes v).getD 0 0 := by
    unfold encodeCompact
    rw [List.getD_append]
    rw [encodeCompactBytes_length]
    omega
  have hroundtrip :
      decode_compact_int (encodeCompact v) = (v, compactMode v, compactByteLength v) := by
    apply decode_compact_window v hv
    intro i hi
    unfold encodeCompact
    rw [List.getD_append]
    rw [encodeCompactBytes_length]
    omega
  refine ⟨hroundtrip, ?_, ?_⟩
  · have := congrArg (fun t => t.2.1) hroundtrip
    rw [decode_compact_int_def] at this
    simp only at this
    rw [← this, hb0]
  · have := congrArg (fun t => t.2.2) hroundtrip
    rw [decode_compact_int_def] at this
    simp only at this
    have hmm := congrArg (fun t => t.2.1) hroundtrip
    rw [decode_compact_int_def] at hmm
    simp only at hmm
    rw [← this, hmm]

theorem decode_compact_int_canonical_witness :
    (576728 : ℕ) < 2 ^ 32 ∧
    (decode_compact_int (encodeCompact 576728) =
       (576728, compactMode 576728, compactByteLength 576728) ∧
     compactMode 576728 = (encodeCompact 576728).getD 0 0 % 4 ∧
     compactByteLength 576728 = List.getD [1, 2, 4, 5] (compactMode 576728) 0) :=
  ⟨by norm_num, decode_compact_int_canonical 576728 (by norm_num)⟩

/-- Input bundle of decode_header (src/circuits/src/encoding.rs lines 54-57):
the header byte wires and the header_size wire. -/
structure EncodedHeaderTarget where
  header_bytes : List ℕ
  header_size : ℕ

/-- Output bundle of decode_header (src/circuits/src/encoding.rs lines 59-64). -/
structure HeaderTarget where
  block_number : ℕ
  parent_hash : List ℕ
  state_root : List ℕ

def HASH_SIZE : ℕ := 32

/-- Embedding of decode_header (src/circuits/src/encoding.rs lines 76-124):
parent hash is bytes 0..32, the block number comes from decode_compact_int
on the 5-byte window at offset 32, and the state root is selected by
random_access_vec over the four candidate 32-byte slices at offsets
33, 34, 36, 37, indexed by the compact compress mode. -/
def decode_header (header : EncodedHeaderTarget) : HeaderTarget :=
  let parent_hash_target := sliceD header.header_bytes 0 32
  let dci := decode_compact_int (sliceD header.header_bytes 32 5)
  let all_possible_state_roots :=
    [sliceD header.header_bytes 33 HASH_SIZE,
     sliceD header.header_bytes 34 HASH_SIZE,
     sliceD header.header_bytes 36 HASH_SIZE,
     sliceD header.header_bytes 37 HASH_SIZE]
  let state_root_target := random_access_vec dci.2.1 all_possible_state_roots
  { block_number := dci.1,
    parent_hash := parent_hash_target,
    state_root := state_root_target }

lemma map_range_getD (l : List ℕ) :
    (List.range l.length).map (fun i => l.getD i 0) = l := by
  apply List.ext_getElem
  · simp
  · intro i h1 h2
    simp only [List.getElem_map, List.getElem_range]
    rw [List.getD_eq_getElem]

lemma random_access_vec_select (index : ℕ) (t0 t1 t2 t3 : List ℕ)
    (h0 : t0.length = 32) (h1 : t1.length = 32) (h2 : t2.length = 32) (h3 : t3.length = 32)
    (hidx : index < 4) :
    random_access_vec index [t0, t1, t2, t3] = [t0, t1, t2, t3].getD index [] := by
  unfold random_access_vec random_access
  simp only [List.headD_cons]
  interval_cases index
  · simp only [List.getD_cons_zero, List.map_cons, List.map_nil]
    exact map_range_getD t0
  · simp only [List.getD_cons_succ, List.getD_cons_zero, List.map_cons, List.map_nil]
    rw [h0, ← h1]
    exact map_range_getD t1
  · simp only [List.getD_cons_succ, List.getD_cons_zero, List.map_cons, List.map_nil]
    rw [h0, ← h2]
    exact map_range_getD t2
  · simp only [List.getD_cons_succ, List.getD_cons_zero, List.map_cons, List.map_nil]
    rw [h0, ← h3]
    exact map_range_getD t3

lemma sliceD_at_offset (P mid S tail : List ℕ) (hP : P.length = 32) (hS : S.length = 32) :
    sliceD (P ++ (mid ++ (S ++ tail))) (32 + mid.length) 32 = S := by
  rw [sliceD_append_right P _ (32 + mid.length) 32 (by omega)]
  rw [hP]
  have h1 : 32 + mid.length - 32 = mid.length := by omega
  rw [h1]
  rw [sliceD_append_right mid _ mid.length 32 (le_refl _)]
  rw [Nat.sub_self]
  rw [sliceD_append_left S tail 0 32 (by omega)]
  rw [← hS, sliceD_self]

lemma compactByteLength_le_five (n : ℕ) : compactByteLength n ≤ 5 := by
  unfold compactByteLength
  split
  · omega
  · split
    · omega
    · split <;> omega

lemma compactMode_lt_four (n : ℕ) : compactMode n < 4 := by
  unfold compactMode
  split
  · omega
  · split
    · omega
    · split <;> omega

/-- C2: for every honestly SCALE-encoded header placed in the header buffer
(parent hash P, canonical compact block number n, state root S, arbitrary
remainder), decode_header returns parent_hash = P, block_number = n and
state_root = S, the 32 bytes starting at offset 32 + byte_length(mode). -/
theorem decode_header_honest (P S tail : List ℕ) (n sz : ℕ)
    (hP : P.length = 32) (hS : S.length = 32) (hn : n < 2 ^ 32) :
    decode_header ⟨P ++ (encodeCompactBytes n ++ (S ++ tail)), sz⟩ =
      { block_number := n, parent_hash := P, state_root := S } ∧
    sliceD (P ++ (encodeCompactBytes n ++ (S ++ tail))) (32 + compactByteLength n) 32 = S := by
  have hlen := encodeCompactBytes_length n
  have hlen5 := compactByteLength_le_five n
  have hoff : sliceD (P ++ (encodeCompactBytes n ++ (S ++ tail)))
      (32 + compactByteLength n) 32 = S := by
    rw [← hlen]
    exact sliceD_at_offset P (encodeCompactBytes n) S tail hP hS
  have hwin : decode_compact_int (sliceD (P ++ (encodeCompactBytes n ++ (S ++ tail))) 32 5) =
      (n, compactMode n, compactByteLength n) := by
    apply decode_compact_window n hn
    intro i hi
    rw [getD_sliceD _ _ _ _ (by omega : i < 5)]
    rw [List.getD_append_right P _ 0 (32 + i) (by omega)]
    rw [hP]
    have h32i : 32 + i - 32 = i := by omega
    rw [h32i]
    exact List.getD_append _ _ 0 i (by rw [hlen]; exact hi)
  have hparent : sliceD (P ++ (encodeCompactBytes n ++ (S ++ tail))) 0 32 = P := by
    rw [sliceD_append_left P _ 0 32 (by omega)]
    rw [← hP, sliceD_self]
  have hroot : random_access_vec (compactMode n)
      [sliceD (P ++ (encodeCompactBytes n ++ (S ++ tail))) 33 32,
       sliceD (P ++ (encodeCompactBytes n ++ (S ++ tail))) 34 32,
       sliceD (P ++ (encodeCompactBytes n ++ (S ++ tail))) 36 32,
       sliceD (P ++ (encodeCompactBytes n ++ (S ++ tail))) 37 32] = S := by
    rw [random_access_vec_select _ _ _ _ _ (sliceD_length _ _ _) (sliceD_length _ _ _)
      (sliceD_length _ _ _) (sliceD_length _ _ _) (compactMode_lt_four n)]
    by_cases b0 : n < 64
    · have hm : compactMode n = 0 := by
        unfold compactMode
        rw [if_pos b0]
      have hl : compactByteLength n = 1 := by
        unfold compactByteLength
        rw [if_pos b0]
      rw [hm]
      simp only [List.getD_cons_zero]
      rw [show (33 : ℕ) = 32 + 1 from rfl, ← hl]
      exact hoff
    · by_cases b1 : n < 16384
      · have hm : compactMode n = 1 := by
          unfold compactMode
          rw [if_neg b0, if_pos b1]
        have hl : compactByteLength n = 2 := by
          unfold compactByteLength
          rw [if_neg b0, if_pos b1]
        rw [hm]
        simp only [List.getD_cons_succ, List.getD_cons_zero]
        rw [show (34 : ℕ) = 32 + 2 from rfl, ← hl]
        exact hoff
      · by_cases b2 : n < 2 ^ 30
        · have hm : compactMode n = 2 := by
            unfold compactMode
            rw [if_neg b0, if_neg b1, if_pos b2]
          have hl : compactByteLength n = 4 := by
            unfold compactByteLength
            rw [if_neg b0, if_neg b1, if_pos b2]
          rw [hm]
          simp only [List.getD_cons_succ, List.getD_cons_zero]
          rw [show (36 : ℕ) = 32 + 4 from rfl, ← hl]
          exact hoff
        · have hm : compactMode n = 3 := by
            unfold compactMode
            rw [if_neg b0, if_neg b1, if_neg b2]
          have hl : compactByteLength n = 5 := by
            unfold compactByteLength
            rw [if_neg b0, if_neg b1, if_neg b2]
          rw [hm]
          simp only [List.getD_cons_succ, List.getD_cons_zero]
          rw [show (37 : ℕ) = 32 + 5 from rfl, ← hl]
          exact hoff
  refine ⟨?_, hoff⟩
  unfold decode_header
  simp only [HASH_SIZE]
  rw [hwin]
  simp only [HeaderTarget.mk.injEq]
  exact ⟨trivial, hparent, hroot⟩

theorem decode_header_honest_witness :
    (List.replicate 32 7 : List ℕ).length = 32 ∧
    (List.replicate 32 9 : List ℕ).length = 32 ∧
    (576728 : ℕ) < 2 ^ 32 ∧
    (decode_header ⟨(List.replicate 32 7 : List ℕ) ++
        (encodeCompactBytes 576728 ++ ((List.replicate 32 9 : List ℕ) ++ ([] : List ℕ))), 69⟩ =
        { block_number := 576728, parent_hash := List.replicate 32 7,
          state_root := List.replicate 32 9 } ∧
     sliceD ((List.replicate 32 7 : List ℕ) ++
        (encodeCompactBytes 576728 ++ ((List.replicate 32 9 : List ℕ) ++ ([] : List ℕ))))
        (32 + compactByteLength 576728) 32 = List.replicate 32 9) :=
  ⟨by simp, by simp, by norm_num,
   decode_header_honest (List.replicate 32 7) (List.replicate 32 9) [] 576728 69
     (by simp) (by simp) (by norm_num)⟩

lemma sliceD_congr (l1 l2 : List ℕ) (s n B : ℕ) (hB : s + n ≤ B)
    (hagree : ∀ i, i < B → l1.getD i 0 = l2.getD i 0) :
    sliceD l1 s n = sliceD l2 s n := by
  induction n generalizing s with
  | zero => rfl
  | succ m ih =>
      simp only [sliceD]
      rw [hagree s (by omega), ih (s + 1) (by omega)]

/-- C10: decode_header reads only the first 69 header bytes and never reads
header_size: two inputs of sufficient length that agree on bytes 0..69
decode identically, whatever their header_size fields and later bytes. -/
theorem decode_header_extensional (ha hb : EncodedHeaderTarget)
    (hla : 69 ≤ ha.header_bytes.length) (hlb : 69 ≤ hb.header_bytes.length)
    (hagree : ∀ i, i < 69 → ha.header_bytes.getD i 0 = hb.header_bytes.getD i 0) :
    decode_header ha = decode_header hb := by
  unfold decode_header
  simp only [HASH_SIZE]
  rw [sliceD_congr _ _ 0 32 69 (by omega) hagree,
      sliceD_congr _ _ 32 5 69 (by omega) hagree,
      sliceD_congr _ _ 33 32 69 (by omega) hagree,
      sliceD_congr _ _ 34 32 69 (by omega) hagree,
      sliceD_congr _ _ 36 32 69 (by omega) hagree,
      sliceD_congr _ _ 37 32 69 (by omega) hagree]

/-- Concrete header buffer differing from hdrB only in header_size and in
bytes at positions 69 and beyond. -/
def hdrA : EncodedHeaderTarget :=
  { header_bytes := List.replicate 69 0 ++ [1], header_size := 70 }

def hdrB : EncodedHeaderTarget :=
  { header_bytes := List.replicate 69 0 ++ [2, 3], header_size := 5 }

theorem decode_header_extensional_witness :
    69 ≤ hdrA.header_bytes.length ∧ 69 ≤ hdrB.header_bytes.length ∧
    (∀ i, i < 69 → hdrA.header_bytes.getD i 0 = hdrB.header_bytes.getD i 0) ∧
    decode_header hdrA = decode_header hdrB :=
  ⟨by decide, by decide, by decide,
   decode_header_extensional hdrA hdrB (by decide) (by decide) (by decide)⟩

def CHUNK_128_BYTES : ℕ := 128

def ENCODED_MESSAGE_LENGTH : ℕ := 53

/-- Arguments (max message size in bits, hash length in bytes) passed to
make_blake2b_circuit by build_grandpa_justification_verifier
(src/circuits/src/consensus.rs lines 58-62).  The call passes the fixed
constants CHUNK_128_BYTES * 8 * 10 and 32, ignoring the configured
max_encoded_header_length. -/
def blake2b_instantiation (max_encoded_header_length : ℕ) : ℕ × ℕ :=
  (CHUNK_128_BYTES * 8 * 10, 32)

/-- Definition following the words of the spec (section 4.4): maximum
message size M_bits = 128 * 8 * ceil(max_header_bytes / 128). -/
def spec_blake2b_max_message_bits (max_header_bytes : ℕ) : ℕ :=
  128 * 8 * ((max_header_bytes + 127) / 128)

/-- C3 counterexample: at configuration max_header_bytes = 128 the builder
still instantiates the Blake2b gadget at 10240 bits, not
128 * 8 * ceil(128 / 128) = 1024 bits as the claim states. -/
theorem blake2b_instantiation_counterexample :
    blake2b_instantiation 128 ≠ (spec_blake2b_max_message_bits 128, 32) := by
  decide

/-- C3 amended: the Blake2b gadget is instantiated at the fixed size
128 * 8 * 10 = 10240 bits with a 32-byte output for every configuration,
and this agrees with the formula 128 * 8 * ceil(max_header_bytes / 128)
exactly when ceil(max_header_bytes / 128) = 10 (as at the exercised
configuration max_header_bytes = 1280). -/
theorem blake2b_instantiation_fixed (max_encoded_header_length : ℕ) :
    blake2b_instantiation max_encoded_header_length = (CHUNK_128_BYTES * 8 * 10, 32) ∧
    (spec_blake2b_max_message_bits max_encoded_header_length =
        (blake2b_instantiation max_encoded_header_length).1 ↔
      (max_encoded_header_length + 127) / 128 = 10) := by
  refine ⟨rfl, ?_⟩
  unfold spec_blake2b_max_message_bits blake2b_instantiation CHUNK_128_BYTES
  norm_num
  omega

/-- Modelled from the spec: consensus.rs uses make_scale_header_circuit and
its get_number accessor, whose definitions are not among the sources; per
section 4.3 of the spec the decoder's block number is the compact integer
decoded from header bytes 32..37 — the same computation as decode_header
performs (see scale_header_block_number_decode_header). -/
def scale_header_block_number (header_bytes : List ℕ) : ℕ :=
  (decode_compact_int (sliceD header_bytes 32 5)).1

lemma scale_header_block_number_decode_header (bytes : List ℕ) (sz : ℕ) :
    scale_header_block_number bytes = (decode_header ⟨bytes, sz⟩).block_number := rfl

/-- Bit j of the message bit array built at src/circuits/src/consensus.rs
lines 110-119: each range-checked message byte is split into 8 little-endian
bits (uniquely determined by the byte) and the bits are reversed to
big-endian order before being concatenated. -/
def encoded_msg_bits (encoded_message : List ℕ) : List ℕ :=
  (List.range (ENCODED_MESSAGE_LENGTH * 8)).map
    (fun j => encoded_message.getD (j / 8) 0 / 2 ^ (7 - j % 8) % 2)

/-- Values taken, in one witness of the built justification circuit, by the
wires that build_grandpa_justification_verifier allocates or receives from
the Blake2b and Ed25519 gadgets (src/circuits/src/consensus.rs lines
36-141). -/
structure GrandpaWitness where
  encoded_header : List ℕ
  encoded_header_length : ℕ
  blake2_message : List ℕ
  blake2_message_len : ℕ
  encoded_message : List ℕ
  digest : List ℕ
  eddsa_msg : List (List ℕ)

/-- The constraints emitted by build_grandpa_justification_verifier
(src/circuits/src/consensus.rs lines 36-141), in emission order, as they
bear on the witness values above:
1. each header byte is range-checked to 8 bits;
2. each header byte's (uniquely determined) bits are connected big-endian
   to the Blake2b message input;
3. the header length wire is connected to the gadget's message_len;
4. each of the 53 message bytes is range-checked to 8 bits;
5. encoded_message[0] is connected to the constant 1;
6. the Blake2b digest wires are boolean (gadget interface);
7. for each of the 32 digest bytes, le_sum of the reversed 8-bit digest
   chunk is connected to encoded_message[1 + i];
8. reduce_with_powers of encoded_message[33..37] with alpha = 256 is
   connected to the header decoder's block number (the decoder sub-circuit
   evaluated deterministically on the connected header bytes);
9. for each validator, the Ed25519 gadget's msg wires are connected to the
   message bit array. -/
def grandpaConstraints (max_encoded_header_length num_validators : ℕ)
    (w : GrandpaWitness) : Prop :=
  (∀ i, i < max_encoded_header_length → w.encoded_header.getD i 0 < 256) ∧
  (∀ i, i < max_encoded_header_length → ∀ j, j < 8 →
    w.blake2_message.getD (i * 8 + j) 0 = w.encoded_header.getD i 0 / 2 ^ (7 - j) % 2) ∧
  w.blake2_message_len = w.encoded_header_length ∧
  (∀ i, i < ENCODED_MESSAGE_LENGTH → w.encoded_message.getD i 0 < 256) ∧
  w.encoded_message.getD 0 0 = 1 ∧
  (∀ i, i < 256 → w.digest.getD i 0 < 2) ∧
  (∀ i, i < 32 →
    le_sum ((sliceD w.digest (i * 8) 8).reverse) = w.encoded_message.getD (i + 1) 0) ∧
  reduce 256 (sliceD w.encoded_message 33 4) = scale_header_block_number w.encoded_header ∧
  (∀ k, k < num_validators → w.eddsa_msg.getD k [] = encoded_msg_bits w.encoded_message)

instance grandpaConstraints_decidable (m n : ℕ) (w : GrandpaWitness) :
    Decidable (grandpaConstraints m n w) := by
  unfold grandpaConstraints
  infer_instance

lemma sliceD_eight (d : List ℕ) (s : ℕ) :
    sliceD d s 8 = [d.getD s 0, d.getD (s + 1) 0, d.getD (s + 2) 0, d.getD (s + 3) 0,
      d.getD (s + 4) 0, d.getD (s + 5) 0, d.getD (s + 6) 0, d.getD (s + 7) 0] := by
  apply List.ext_getElem
  · simp [sliceD_length]
  · intro i h1 h2
    have h8 : i < 8 := by
      rw [sliceD_length] at h1
      exact h1
    rw [← List.getD_eq_getElem _ 0 h1, getD_sliceD d s 8 i h8]
    interval_cases i <;> simp

lemma sliceD_four (d : List ℕ) (s : ℕ) :
    sliceD d s 4 = [d.getD s 0, d.getD (s + 1) 0, d.getD (s + 2) 0, d.getD (s + 3) 0] := by
  apply List.ext_getElem
  · simp [sliceD_length]
  · intro i h1 h2
    have h4 : i < 4 := by
      rw [sliceD_length] at h1
      exact h1
    rw [← List.getD_eq_getElem _ 0 h1, getD_sliceD d s 4 i h4]
    interval_cases i <;> simp

lemma le_sum_reverse_eight (d : List ℕ) (s : ℕ) :
    le_sum ((sliceD d s 8).reverse) =
      ∑ b ∈ Finset.range 8, d.getD (s + (7 - b)) 0 * 2 ^ b := by
  rw [sliceD_eight]
  simp only [List.reverse_cons, List.reverse_nil, List.nil_append, List.cons_append,
    le_sum, Finset.sum_range_succ, Finset.sum_range_zero]
  norm_num
  ring

lemma reduce_sliceD_four (msg : List ℕ) (s : ℕ) :
    reduce 256 (sliceD msg s 4) =
      msg.getD s 0 + 256 * msg.getD (s + 1) 0 +
      256 ^ 2 * msg.getD (s + 2) 0 + 256 ^ 3 * msg.getD (s + 3) 0 := by
  rw [sliceD_four]
  simp only [reduce]
  ring

/-- C4: in every witness satisfying the constraints of the built
justification circuit, for every i < 32 the message byte
encoded_message[1 + i] equals the byte assembled from digest bits
[8i, 8i + 8) in reversed (most-significant-first) order,
sum over b < 8 of digest[8i + (7 - b)] * 2^b. -/
theorem encoded_message_digest_bytes (m n : ℕ) (w : GrandpaWitness)
    (h : grandpaConstraints m n w) (i : ℕ) (hi : i < 32) :
    w.encoded_message.getD (1 + i) 0 =
      ∑ b ∈ Finset.range 8, w.digest.getD (8 * i + (7 - b)) 0 * 2 ^ b := by
  have hc := h.2.2.2.2.2.2.1 i hi
  rw [le_sum_reverse_eight] at hc
  rw [Nat.add_comm 1 i, ← hc]
  apply Finset.sum_congr rfl
  intro b _
  rw [Nat.mul_comm i 8]

/-- C5: every witness satisfying the constraints of the built justification
circuit has encoded_message[0] = 1 (the precommit tag), and the four bytes
encoded_message[33..37] read as a little-endian integer equal the block
number decoded from the header by the SCALE header decoder. -/
theorem encoded_message_tag_block_number (m n : ℕ) (w : GrandpaWitness)
    (h : grandpaConstraints m n w) :
    w.encoded_message.getD 0 0 = 1 ∧
    w.encoded_message.getD 33 0 + 256 * w.encoded_message.getD 34 0 +
      256 ^ 2 * w.encoded_message.getD 35 0 + 256 ^ 3 * w.encoded_message.getD 36 0 =
      (decode_header ⟨w.encoded_header, w.encoded_header_length⟩).block_number := by
  refine ⟨h.2.2.2.2.1, ?_⟩
  have hc := h.2.2.2.2.2.2.2.1
  rw [reduce_sliceD_four] at hc
  rw [scale_header_block_number_decode_header w.encoded_header w.encoded_header_length] at hc
  norm_num at hc ⊢
  exact hc

/-- C6: in every witness satisfying the constraints of the built
justification circuit, every one of the N Ed25519 gadgets receives the
identical 424-bit big-endian bit decomposition of the 53 message bytes, so
all validators verify a signature over the same message. -/
theorem eddsa_message_uniform (m n : ℕ) (w : GrandpaWitness)
    (h : grandpaConstraints m n w) :
    (∀ k, k < n → w.eddsa_msg.getD k [] = encoded_msg_bits w.encoded_message) ∧
    (encoded_msg_bits w.encoded_message).length = 424 ∧
    (∀ k1, k1 < n → ∀ k2, k2 < n → w.eddsa_msg.getD k1 [] = w.eddsa_msg.getD k2 []) := by
  have hc := h.2.2.2.2.2.2.2.2
  refine ⟨hc, ?_, ?_⟩
  · unfold encoded_msg_bits ENCODED_MESSAGE_LENGTH
    simp
  · intro k1 hk1 k2 hk2
    rw [hc k1 hk1, hc k2 hk2]

/-- A concrete satisfying witness of the justification circuit constraints
at configuration (1, 1): all-zero header, all-zero digest, the message
1, 0, 0, ..., 0. -/
def msg0 : List ℕ := 1 :: List.replicate 52 0

def w0 : GrandpaWitness :=
  { encoded_header := [0],
    encoded_header_length := 0,
    blake2_message := [],
    blake2_message_len := 0,
    encoded_message := msg0,
    digest := [],
    eddsa_msg := [encoded_msg_bits msg0] }

set_option maxRecDepth 100000 in
theorem encoded_message_digest_bytes_witness :
    grandpaConstraints 1 1 w0 ∧ (0 : ℕ) < 32 ∧
    w0.encoded_message.getD (1 + 0) 0 =
      ∑ b ∈ Finset.range 8, w0.digest.getD (8 * 0 + (7 - b)) 0 * 2 ^ b :=
  ⟨by decide, by decide, encoded_message_digest_bytes 1 1 w0 (by decide) 0 (by decide)⟩

set_option maxRecDepth 100000 in
theorem encoded_message_tag_block_number_witness :
    grandpaConstraints 1 1 w0 ∧
    (w0.encoded_message.getD 0 0 = 1 ∧
     w0.encoded_message.getD 33 0 + 256 * w0.encoded_message.getD 34 0 +
       256 ^ 2 * w0.encoded_message.getD 35 0 + 256 ^ 3 * w0.encoded_message.getD 36 0 =
       (decode_header ⟨w0.encoded_header, w0.encoded_header_length⟩).block_number) :=
  ⟨by decide, encoded_message_tag_block_number 1 1 w0 (by decide)⟩

set_option maxRecDepth 100000 in
theorem eddsa_message_uniform_witness :
    grandpaConstraints 1 1 w0 ∧
    ((∀ k, k < 1 → w0.eddsa_msg.getD k [] = encoded_msg_bits w0.encoded_message) ∧
     (encoded_msg_bits w0.encoded_message).length = 424 ∧
     (∀ k1, k1 < 1 → ∀ k2, k2 < 1 → w0.eddsa_msg.getD k1 [] = w0.eddsa_msg.getD k2 [])) :=
  ⟨by decide, eddsa_message_uniform 1 1 w0 (by decide)⟩
